import Mathlib

/-!
# Verification of the `BigInt` arbitrary-precision arithmetic program

Shallow embedding of `src/main.cpp`: a bignum type storing decimal digits
least-significant-first in a growable sequence (`std::vector<int8_t>` is
modelled as `List Nat`; all digit values handled by the program fit in
`int8_t` without overflow, every intermediate in addition/multiplication
being a sum/product of values in `[0, 99]`), together with the arithmetic
operators and the derived numeric algorithms `factorial`, `power` and
`fibonacci`.

Out-of-bounds accesses into the digit vector (undefined behaviour in the
source) are modelled as `Option.none`; total code is modelled by total
functions.
-/

namespace Lab2

/-- `class BigInt { std::vector<int8_t> storage; }` — decimal digits,
index 0 = least significant. -/
structure BigInt where
  storage : List Nat
deriving DecidableEq

/-- Numeric value of a digit sequence (least-significant digit first). -/
def digitsVal : List Nat → Nat
  | [] => 0
  | d :: ds => d + 10 * digitsVal ds

/-- Every stored element is a decimal digit (the data-model invariant
“each stored element is in [0, 9]”). -/
def Digits (xs : List Nat) : Prop := ∀ d ∈ xs, d ≤ 9

instance (xs : List Nat) : Decidable (Digits xs) :=
  inferInstanceAs (Decidable (∀ d ∈ xs, d ≤ 9))

/-- Canonical form: the sequence is non-empty, and its most-significant
(last) digit is nonzero unless the sequence has exactly one digit. -/
def Canonical (xs : List Nat) : Prop :=
  xs ≠ [] ∧ (xs.length = 1 ∨ xs.getLast? ≠ some 0)

instance (xs : List Nat) : Decidable (Canonical xs) :=
  inferInstanceAs (Decidable (_ ∧ (_ ∨ _)))

/-- The full representation invariant of a `BigInt` value. -/
def Good (a : BigInt) : Prop := Digits a.storage ∧ Canonical a.storage

instance (a : BigInt) : Decidable (Good a) :=
  inferInstanceAs (Decidable (_ ∧ _))

/-- The digit-extraction loop of `BigInt::BigInt(unsigned int)`:
`do { storage.push_back(number % 10); number /= 10; } while (number);`.
One iteration pushes `n % 10`; the loop continues while `n / 10 ≠ 0`,
i.e. while `10 ≤ n`. -/
def natDigits (n : Nat) : List Nat :=
  if h : n < 10 then [n]
  else n % 10 :: natDigits (n / 10)
termination_by n
decreasing_by
  simp_wf
  exact Nat.div_lt_self (by omega) (by omega)

/-- `BigInt::BigInt(unsigned int number)`. -/
def BigInt.ofNat (n : Nat) : BigInt := ⟨natDigits n⟩

/-- `BigInt::BigInt(std::string str)`: `storage[str.size()-1-i] = str[i]-'0'`,
i.e. the characters are stored reversed, without canonicalization.  The
constructor's contract restricts `str` to decimal digits, so `c - '0'` is
the value in `[0, 9]` modelled by `c.toNat - 48`. -/
def BigInt.ofString (s : String) : BigInt :=
  ⟨(s.data.map (fun c => c.toNat - 48)).reverse⟩

/-- `BigInt::operator std::string()`: `str[i] = storage[size-1-i] + '0'`,
i.e. the digits are emitted most-significant-first. -/
def BigInt.toString (a : BigInt) : String :=
  ⟨a.storage.reverse.map (fun d => Char.ofNat (d + 48))⟩

/-- Second phase of the loop in `operator+=`: indices past the end of
`right.storage`, running while `carry` is nonzero.  If the index reaches
the end of `left.storage` the carry digit is pushed and the loop breaks;
otherwise `left.storage[i] += carry` with the usual digit/carry split. -/
def addPhase2 : List Nat → Nat → List Nat
  | ls, 0 => ls
  | [], c + 1 => [c + 1]
  | l :: ls, c + 1 => (l + (c + 1)) % 10 :: addPhase2 ls ((l + (c + 1)) / 10)

/-- First phase of the loop in `operator+=`: indices `i < right.storage.size()`,
where `left.storage[i] += right.storage[i] + carry`.  The caller has already
resized `left.storage` to `max` length, so `left` is at least as long as
`right`; the final catch-all branch is unreachable under that contract
(in the source it would be an out-of-bounds write). -/
def addPhase1 : List Nat → List Nat → Nat → List Nat
  | ls, [], c => addPhase2 ls c
  | l :: ls, r :: rs, c => (l + r + c) % 10 :: addPhase1 ls rs ((l + r + c) / 10)
  | [], _ :: _, _ => []

/-- `operator+=(BigInt&, const BigInt&)`: resize `left.storage` to
`max(len(left), len(right))` (padding with zero digits), then run the
carry loop. -/
def BigInt.add (a b : BigInt) : BigInt :=
  ⟨addPhase1
      (a.storage ++ List.replicate (max a.storage.length b.storage.length
        - a.storage.length) 0)
      b.storage 0⟩

/-- The trailing-zero strip loop
`while (storage.size() > 1 && storage.back() == 0) storage.pop_back();`,
expressed on the reversed (most-significant-first) sequence: drop leading
zeros while more than one digit remains. -/
def canonAux : List Nat → List Nat
  | [] => []
  | [d] => [d]
  | d :: e :: ds => if d = 0 then canonAux (e :: ds) else d :: e :: ds

/-- Canonicalization applied by `operator*=` and `operator-=`. -/
def canon (xs : List Nat) : List Nat := (canonAux xs.reverse).reverse

/-- The borrow loop of `operator-=`: runs while `i < right.storage.size()`
or a borrow is pending; `left.storage[i] -= subtrahend + borrow`, adding 10
and setting the borrow when the digit goes negative.  Reading
`left.storage[i]` past the end of `left.storage` is out of bounds in the
source (undefined behaviour), modelled as `none`. -/
def subLoop : List Nat → List Nat → Nat → Option (List Nat)
  | ls, [], 0 => some ls
  | [], _ :: _, _ => none
  | [], [], _ + 1 => none
  | l :: ls, rs, b =>
      if l < rs.headD 0 + b then
        (subLoop ls rs.tail 1).map (fun t => (l + 10 - (rs.headD 0 + b)) :: t)
      else (subLoop ls rs.tail 0).map (fun t => (l - (rs.headD 0 + b)) :: t)

/-- `operator-=` / `operator-`: borrow sweep followed by the trailing-zero
strip. -/
def BigInt.sub (a b : BigInt) : Option BigInt :=
  (subLoop a.storage b.storage 0).map (fun t => ⟨canon t⟩)

/-- Inner loop of `operator*=` for one digit `rd` of the right operand:
walks the remaining result buffer alongside the remaining digits of the
left operand, continuing past the left operand's end while a carry is
pending.  Writing past the end of the result buffer is out of bounds in
the source (undefined behaviour), modelled as `none`. -/
def mulPass : List Nat → Nat → List Nat → Nat → Option (List Nat)
  | x :: xs, rd, l :: ls, c =>
      (mulPass xs rd ls ((x + rd * l + c) / 10)).map
        (fun t => (x + rd * l + c) % 10 :: t)
  | x :: xs, rd, [], c + 1 =>
      (mulPass xs rd [] ((x + (c + 1)) / 10)).map
        (fun t => (x + (c + 1)) % 10 :: t)
  | xs, _, [], 0 => some xs
  | [], _, _ :: _, _ => none
  | [], _, [], _ + 1 => none

/-- Outer loop of `operator*=`: one pass per digit of the right operand,
each pass starting one position further into the result buffer. -/
def mulOuter : List Nat → List Nat → List Nat → Option (List Nat)
  | res, _, [] => some res
  | res, ls, r :: rs =>
      match mulPass res r ls 0 with
      | none => none
      | some [] => none
      | some (x :: xs) => (mulOuter xs ls rs).map (fun t => x :: t)

/-- `operator*=` / `operator*`: a zero-filled result buffer of length
`len(left) + len(right)`, the two nested loops, then the trailing-zero
strip. -/
def BigInt.mul (a b : BigInt) : Option BigInt :=
  (mulOuter (List.replicate (a.storage.length + b.storage.length) 0)
      a.storage b.storage).map (fun t => ⟨canon t⟩)

/-- The loop of `factorial` for a non-negative starting value `k`:
`while (number) result *= number--;` multiplies by `k, k-1, …, 1`. -/
def factLoop : Nat → BigInt → Option BigInt
  | 0, result => some result
  | k + 1, result =>
      match BigInt.mul result (BigInt.ofNat (k + 1)) with
      | none => none
      | some r => factLoop k r

/-- `factorial(int number)`.  For a negative argument the loop
`while (number) result *= number--;` decrements away from zero and never
terminates normally (running into signed-overflow undefined behaviour),
modelled as `none`. -/
def factorial : Int → Option BigInt
  | Int.ofNat n => factLoop n (BigInt.ofNat 1)
  | Int.negSucc _ => none

/-- The loop of `power`: while `exponent > 0`, multiply `result` by `base`
when the exponent is odd (`exponent & 1`), square `base`, and halve the
exponent (`exponent >>= 1`).  For the positive values reached by the loop,
`& 1` is the parity test `% 2 = 1` and `>>= 1` is division by two. -/
def powerLoop (base : BigInt) (exponent : Int) (result : BigInt) :
    Option BigInt :=
  if _hpos : 0 < exponent then
    match (if exponent % 2 = 1 then BigInt.mul result base else some result) with
    | none => none
    | some r =>
        match BigInt.mul base base with
        | none => none
        | some b2 => powerLoop b2 (exponent / 2) r
  else some result
termination_by exponent.toNat
decreasing_by
  simp_wf
  omega

/-- `power(BigInt base, int exponent)`. -/
def power (base : BigInt) (exponent : Int) : Option BigInt :=
  powerLoop base exponent (BigInt.ofNat 1)

/-- The loop of `fibonacci`:
`for (; number > 1; number -= 2) { pair[0] += pair[1]; pair[1] += pair[0]; }`,
returning the final loop counter together with the pair. -/
def fibLoop (n : Int) (p0 p1 : BigInt) : Int × BigInt × BigInt :=
  if h : 1 < n then fibLoop (n - 2) (p0.add p1) (p1.add (p0.add p1))
  else (n, p0, p1)
termination_by n.toNat
decreasing_by
  simp_wf
  omega

/-- `fibonacci(int number)`: after the loop, `return fibonacci_pair[number]`.
The index is valid only for `0` and `1`; any other final value (a negative
initial argument) is an out-of-bounds array read (undefined behaviour),
modelled as `none`. -/
def fibonacci (n : Int) : Option BigInt :=
  match fibLoop n (BigInt.ofNat 0) (BigInt.ofNat 1) with
  | (m, p0, p1) => if m = 0 then some p0 else if m = 1 then some p1 else none

/-! ## Basic facts about digit values -/

theorem digitsVal_append (xs ys : List Nat) :
    digitsVal (xs ++ ys) = digitsVal xs + 10 ^ xs.length * digitsVal ys := by
  induction xs with
  | nil => simp [digitsVal]
  | cons d ds ih => simp [digitsVal, ih, pow_succ]; ring

theorem digitsVal_replicate_zero (n : Nat) :
    digitsVal (List.replicate n 0) = 0 := by
  induction n with
  | zero => rfl
  | succ k ih => simpa [List.replicate_succ, digitsVal] using ih

theorem digitsVal_lt (xs : List Nat) (h : Digits xs) :
    digitsVal xs < 10 ^ xs.length := by
  induction xs with
  | nil => simp [digitsVal]
  | cons d ds ih =>
      have hd : d ≤ 9 := h d (List.mem_cons_self d ds)
      have hds : digitsVal ds < 10 ^ ds.length :=
        ih (fun e he => h e (List.mem_cons_of_mem d he))
      simp only [digitsVal, List.length_cons, pow_succ]
      omega

theorem le_digitsVal_of_getLast (xs : List Nat) (d : Nat)
    (h : xs.getLast? = some d) (hd : d ≠ 0) :
    10 ^ (xs.length - 1) ≤ digitsVal xs := by
  obtain ⟨ys, rfl⟩ := List.getLast?_eq_some_iff.mp h
  rw [digitsVal_append]
  simp [digitsVal]
  nlinarith [Nat.one_le_iff_ne_zero.mpr hd, pow_pos (by norm_num : (0:Nat) < 10) ys.length]

theorem digitsVal_lt_of_getLast_zero (xs : List Nat) (h : Digits xs)
    (h0 : xs.getLast? = some 0) : digitsVal xs < 10 ^ (xs.length - 1) := by
  obtain ⟨ys, rfl⟩ := List.getLast?_eq_some_iff.mp h0
  rw [digitsVal_append]
  have : Digits ys := fun e he => h e (List.mem_append_left _ he)
  simpa [digitsVal] using digitsVal_lt ys this

/-! ## Facts about the native-integer constructor -/

theorem digits_natDigits (n : Nat) : Digits (natDigits n) := by
  induction n using natDigits.induct with
  | case1 n h => rw [natDigits, dif_pos h]; intro d hd; simp at hd; omega
  | case2 n h ih =>
      rw [natDigits, dif_neg h]
      intro d hd
      rcases List.mem_cons.mp hd with h1 | h2
      · omega
      · exact ih d h2

theorem digitsVal_natDigits (n : Nat) : digitsVal (natDigits n) = n := by
  induction n using natDigits.induct with
  | case1 n h => rw [natDigits, dif_pos h]; simp [digitsVal]
  | case2 n h ih => rw [natDigits, dif_neg h]; simp [digitsVal, ih]; omega

theorem natDigits_ne_nil (n : Nat) : natDigits n ≠ [] := by
  by_cases h : n < 10
  · rw [natDigits, dif_pos h]; simp
  · rw [natDigits, dif_neg h]; simp

theorem getLast_natDigits (n : Nat) (hn : n ≠ 0) (d : Nat)
    (h : (natDigits n).getLast? = some d) : d ≠ 0 := by
  induction n using natDigits.induct generalizing d with
  | case1 n hlt =>
      rw [natDigits, dif_pos hlt] at h
      simp at h
      omega
  | case2 n hlt ih =>
      rw [natDigits, dif_neg hlt] at h
      obtain ⟨e, es, hee⟩ : ∃ e es, natDigits (n / 10) = e :: es := by
        cases hne : natDigits (n / 10) with
        | nil => exact absurd hne (natDigits_ne_nil _)
        | cons e es => exact ⟨e, es, rfl⟩
      rw [hee, List.getLast?_cons_cons] at h
      exact ih (by omega) d (by rw [hee]; exact h)

theorem canonical_natDigits (n : Nat) : Canonical (natDigits n) := by
  refine ⟨natDigits_ne_nil n, ?_⟩
  by_cases h : n < 10
  · left; rw [natDigits, dif_pos h]; rfl
  · right
    intro hlast
    exact getLast_natDigits n (by omega) 0 hlast rfl

theorem good_ofNat (n : Nat) : Good (BigInt.ofNat n) :=
  ⟨digits_natDigits n, canonical_natDigits n⟩

/-- The canonical digit sequence of a value is unique: `natDigits` recovers
any canonical in-range digit sequence from its value. -/
theorem natDigits_digitsVal (xs : List Nat) (hd : Digits xs) (hc : Canonical xs) :
    natDigits (digitsVal xs) = xs := by
  induction xs with
  | nil => exact absurd rfl hc.1
  | cons d ds ih =>
      cases ds with
      | nil =>
          have : d ≤ 9 := hd d (by simp)
          rw [natDigits, dif_pos (by simp [digitsVal]; omega)]
          simp [digitsVal]
      | cons e ds₂ =>
          have hlast : (d :: e :: ds₂).getLast? ≠ some 0 := by
            rcases hc.2 with h1 | h2
            · simp at h1
            · exact h2
          rw [List.getLast?_cons_cons] at hlast
          have hce : Canonical (e :: ds₂) := by
            refine ⟨by simp, ?_⟩
            by_cases hlen : (e :: ds₂).length = 1
            · exact Or.inl hlen
            · exact Or.inr hlast
          have hde : Digits (e :: ds₂) :=
            fun x hx => hd x (List.mem_cons_of_mem d hx)
          obtain ⟨k, hk⟩ : ∃ k, (e :: ds₂).getLast? = some k :=
            ⟨(e :: ds₂).getLast (by simp), List.getLast?_eq_getLast _ _⟩
          have hk0 : k ≠ 0 := fun h => hlast (h ▸ hk)
          have hval : 1 ≤ digitsVal (e :: ds₂) := by
            have := le_digitsVal_of_getLast (e :: ds₂) k hk hk0
            have : 0 < 10 ^ ((e :: ds₂).length - 1) := pow_pos (by norm_num) _
            omega
          have hd9 : d ≤ 9 := hd d (by simp)
          rw [digitsVal]
          rw [natDigits, dif_neg (by omega)]
          have h1 : (d + 10 * digitsVal (e :: ds₂)) % 10 = d := by omega
          have h2 : (d + 10 * digitsVal (e :: ds₂)) / 10 = digitsVal (e :: ds₂) := by
            omega
          rw [h1, h2, ih hde hce]

/-- Two canonical in-range digit sequences with the same numeric value are
equal. -/
theorem digitsVal_inj (xs ys : List Nat) (hdx : Digits xs) (hcx : Canonical xs)
    (hdy : Digits ys) (hcy : Canonical ys)
    (h : digitsVal xs = digitsVal ys) : xs = ys := by
  rw [← natDigits_digitsVal xs hdx hcx, ← natDigits_digitsVal ys hdy hcy, h]

/-! ## Facts about addition -/

theorem digitsVal_addPhase2 (ls : List Nat) (c : Nat) :
    digitsVal (addPhase2 ls c) = digitsVal ls + c := by
  induction ls generalizing c with
  | nil => cases c with
      | zero => rfl
      | succ k => simp [addPhase2, digitsVal]
  | cons l ls ih =>
      cases c with
      | zero => rfl
      | succ k =>
          simp only [addPhase2, digitsVal, ih]
          omega

theorem addPhase1_nil (ls : List Nat) (c : Nat) :
    addPhase1 ls [] c = addPhase2 ls c := by
  cases ls <;> rfl

theorem digitsVal_addPhase1 (rs ls : List Nat) (c : Nat)
    (h : rs.length ≤ ls.length) :
    digitsVal (addPhase1 ls rs c) = digitsVal ls + digitsVal rs + c := by
  induction rs generalizing ls c with
  | nil => simp [addPhase1_nil, digitsVal_addPhase2, digitsVal]
  | cons r rs ih =>
      cases ls with
      | nil => simp at h
      | cons l ls =>
          simp only [addPhase1, digitsVal, ih ls ((l + r + c) / 10) (by simpa using h)]
          omega

theorem digits_addPhase2 (ls : List Nat) (c : Nat) (hd : Digits ls) (hc : c ≤ 1) :
    Digits (addPhase2 ls c) := by
  induction ls generalizing c with
  | nil =>
      cases c with
      | zero => exact hd
      | succ k => intro d hdm; simp [addPhase2] at hdm; omega
  | cons l ls ih =>
      cases c with
      | zero => exact hd
      | succ k =>
          have hl : l ≤ 9 := hd l (by simp)
          have hrest : Digits ls := fun x hx => hd x (List.mem_cons_of_mem l hx)
          intro d hdm
          simp only [addPhase2] at hdm
          rcases List.mem_cons.mp hdm with h1 | h2
          · omega
          · exact ih ((l + (k + 1)) / 10) hrest (by omega) d h2

theorem digits_addPhase1 (rs ls : List Nat) (c : Nat)
    (hl : Digits ls) (hr : Digits rs) (hc : c ≤ 1) :
    Digits (addPhase1 ls rs c) := by
  induction rs generalizing ls c with
  | nil => rw [addPhase1_nil]; exact digits_addPhase2 ls c hl hc
  | cons r rs ih =>
      cases ls with
      | nil => intro d hdm; simp [addPhase1] at hdm
      | cons l ls =>
          have h9l : l ≤ 9 := hl l (by simp)
          have h9r : r ≤ 9 := hr r (by simp)
          have hls : Digits ls := fun x hx => hl x (List.mem_cons_of_mem l hx)
          have hrs : Digits rs := fun x hx => hr x (List.mem_cons_of_mem r hx)
          intro d hdm
          simp only [addPhase1] at hdm
          rcases List.mem_cons.mp hdm with h1 | h2
          · omega
          · exact ih ls ((l + r + c) / 10) hls hrs (by omega) d h2

theorem addPhase2_length_or (ls : List Nat) (c : Nat) :
    (addPhase2 ls c).length = ls.length ∨
      ((addPhase2 ls c).length = ls.length + 1 ∧
        (addPhase2 ls c).getLast? ≠ some 0) := by
  induction ls generalizing c with
  | nil =>
      cases c with
      | zero => exact Or.inl rfl
      | succ k =>
          refine Or.inr ⟨rfl, ?_⟩
          simp [addPhase2]
  | cons l ls ih =>
      cases c with
      | zero => exact Or.inl rfl
      | succ k =>
          simp only [addPhase2]
          rcases ih ((l + (k + 1)) / 10) with h1 | ⟨h2, h3⟩
          · exact Or.inl (by simp [h1])
          · refine Or.inr ⟨by simp [h2], ?_⟩
            have hne : addPhase2 ls ((l + (k + 1)) / 10) ≠ [] := by
              intro habs
              rw [habs] at h2
              simp at h2
            cases hx : addPhase2 ls ((l + (k + 1)) / 10) with
            | nil => exact absurd hx hne
            | cons y ys =>
                rw [List.getLast?_cons_cons]
                rw [hx] at h3
                exact h3

theorem addPhase1_length_or (rs ls : List Nat) (c : Nat)
    (h : rs.length ≤ ls.length) :
    (addPhase1 ls rs c).length = ls.length ∨
      ((addPhase1 ls rs c).length = ls.length + 1 ∧
        (addPhase1 ls rs c).getLast? ≠ some 0) := by
  induction rs generalizing ls c with
  | nil => rw [addPhase1_nil]; exact addPhase2_length_or ls c
  | cons r rs ih =>
      cases ls with
      | nil => simp at h
      | cons l ls =>
          simp only [addPhase1]
          rcases ih ls ((l + r + c) / 10) (by simpa using h) with h1 | ⟨h2, h3⟩
          · exact Or.inl (by simp [h1])
          · refine Or.inr ⟨by simp [h2], ?_⟩
            have hne : addPhase1 ls rs ((l + r + c) / 10) ≠ [] := by
              intro habs
              rw [habs] at h2
              simp at h2
            cases hx : addPhase1 ls rs ((l + r + c) / 10) with
            | nil => exact absurd hx hne
            | cons y ys =>
                rw [List.getLast?_cons_cons]
                rw [hx] at h3
                exact h3

/-- The padded left operand used by `operator+=` after the `resize` call. -/
def padded (a b : BigInt) : List Nat :=
  a.storage ++ List.replicate (max a.storage.length b.storage.length
    - a.storage.length) 0

theorem padded_length (a b : BigInt) :
    (padded a b).length = max a.storage.length b.storage.length := by
  unfold padded
  rw [List.length_append, List.length_replicate]
  omega

theorem digitsVal_padded (a b : BigInt) :
    digitsVal (padded a b) = digitsVal a.storage := by
  simp [padded, digitsVal_append, digitsVal_replicate_zero]

theorem digits_padded (a b : BigInt) (h : Digits a.storage) :
    Digits (padded a b) := by
  intro d hd
  rcases List.mem_append.mp hd with h1 | h2
  · exact h d h1
  · rw [List.eq_of_mem_replicate h2]; omega

theorem add_eq_phase (a b : BigInt) :
    a.add b = ⟨addPhase1 (padded a b) b.storage 0⟩ := rfl

theorem digitsVal_add (a b : BigInt) :
    digitsVal (a.add b).storage = digitsVal a.storage + digitsVal b.storage := by
  rw [add_eq_phase]
  show digitsVal (addPhase1 (padded a b) b.storage 0) = _
  rw [digitsVal_addPhase1 b.storage (padded a b) 0
      (by rw [padded_length]; omega), digitsVal_padded]
  omega

theorem digits_add (a b : BigInt) (ha : Digits a.storage) (hb : Digits b.storage) :
    Digits (a.add b).storage := by
  rw [add_eq_phase]
  exact digits_addPhase1 b.storage (padded a b) 0 (digits_padded a b ha) hb
    (by omega)

theorem canonical_add (a b : BigInt) (ha : Good a) (hb : Good b) :
    Canonical (a.add b).storage := by
  have hm : 1 ≤ max a.storage.length b.storage.length := by
    have h1 : a.storage ≠ [] := ha.2.1
    have h2 : a.storage.length ≠ 0 := fun h => h1 (List.eq_nil_of_length_eq_zero h)
    omega
  have hlen : b.storage.length ≤ (padded a b).length := by
    rw [padded_length]; omega
  rcases addPhase1_length_or b.storage (padded a b) 0 hlen with h1 | ⟨h2, h3⟩
  · -- no growth: the result has the length of the longer operand
    rw [add_eq_phase]
    refine ⟨?_, ?_⟩
    · intro habs
      have hl0 : (addPhase1 (padded a b) b.storage 0).length = 0 :=
        congrArg List.length habs
      rw [h1, padded_length] at hl0
      omega
    · by_cases hone : max a.storage.length b.storage.length = 1
      · left; rw [h1, padded_length, hone]
      · -- for a multi-digit result, a zero last digit would contradict the
        -- value lower bound coming from the longer canonical operand
        right
        intro hlast
        set zs := addPhase1 (padded a b) b.storage 0 with hzs
        have hdz : Digits zs :=
          digits_addPhase1 b.storage (padded a b) 0 (digits_padded a b ha.1)
            hb.1 (by omega)
        have hvzs : digitsVal zs = digitsVal a.storage + digitsVal b.storage := by
          rw [hzs, digitsVal_addPhase1 b.storage (padded a b) 0 hlen,
            digitsVal_padded]
          omega
        have hsmall : digitsVal zs < 10 ^ (zs.length - 1) :=
          digitsVal_lt_of_getLast_zero zs hdz hlast
        -- the longer operand is canonical with at least two digits
        have hbig : 10 ^ (max a.storage.length b.storage.length - 1)
            ≤ digitsVal a.storage + digitsVal b.storage := by
          rcases max_cases a.storage.length b.storage.length with
            ⟨hmax, _⟩ | ⟨hmax, _⟩
          · have hlen2 : a.storage.length ≠ 1 := by omega
            have hlast2 : a.storage.getLast? ≠ some 0 := by
              rcases ha.2.2 with hh | hh
              · exact absurd hh hlen2
              · exact hh
            obtain ⟨k, hk⟩ : ∃ k, a.storage.getLast? = some k :=
              ⟨a.storage.getLast ha.2.1, List.getLast?_eq_getLast _ _⟩
            have hk0 : k ≠ 0 := fun h => hlast2 (h ▸ hk)
            have := le_digitsVal_of_getLast a.storage k hk hk0
            rw [hmax]
            omega
          · have hlen2 : b.storage.length ≠ 1 := by omega
            have hlast2 : b.storage.getLast? ≠ some 0 := by
              rcases hb.2.2 with hh | hh
              · exact absurd hh hlen2
              · exact hh
            obtain ⟨k, hk⟩ : ∃ k, b.storage.getLast? = some k :=
              ⟨b.storage.getLast hb.2.1, List.getLast?_eq_getLast _ _⟩
            have hk0 : k ≠ 0 := fun h => hlast2 (h ▸ hk)
            have := le_digitsVal_of_getLast b.storage k hk hk0
            rw [hmax]
            omega
        rw [hvzs, h1, padded_length] at hsmall
        omega
  · -- growth by one digit: the appended digit is the nonzero final carry
    rw [add_eq_phase]
    refine ⟨?_, Or.inr h3⟩
    intro habs
    have := congrArg List.length habs
    rw [h2] at this
    simp at this

theorem good_add (a b : BigInt) (ha : Good a) (hb : Good b) : Good (a.add b) :=
  ⟨digits_add a b ha.1 hb.1, canonical_add a b ha hb⟩

/-! ## Facts about the trailing-zero strip -/

theorem canonAux_val (ys : List Nat) :
    digitsVal (canonAux ys).reverse = digitsVal ys.reverse := by
  induction ys using canonAux.induct with
  | case1 => rfl
  | case2 d => rfl
  | case3 e ds ih =>
      rw [canonAux, if_pos rfl, ih]
      rw [show ((0:Nat) :: e :: ds).reverse = (e :: ds).reverse ++ [0] by simp,
        digitsVal_append]
      simp [digitsVal]
  | case4 d e ds h =>
      rw [canonAux, if_neg h]

theorem canonAux_mem (ys : List Nat) (d : Nat) (h : d ∈ canonAux ys) : d ∈ ys := by
  induction ys using canonAux.induct with
  | case1 => simp [canonAux] at h
  | case2 e => simpa [canonAux] using h
  | case3 f ds ih =>
      rw [canonAux, if_pos rfl] at h
      exact List.mem_cons_of_mem 0 (ih h)
  | case4 e f ds he =>
      rw [canonAux, if_neg he] at h
      exact h

theorem canonAux_shape (ys : List Nat) (h : ys ≠ []) :
    canonAux ys ≠ [] ∧
      ((canonAux ys).length = 1 ∨ (canonAux ys).head? ≠ some 0) := by
  induction ys using canonAux.induct with
  | case1 => exact absurd rfl h
  | case2 d => exact ⟨by simp [canonAux], Or.inl rfl⟩
  | case3 e ds ih =>
      rw [canonAux, if_pos rfl]
      exact ih (by simp)
  | case4 d e ds hd =>
      rw [canonAux, if_neg hd]
      refine ⟨by simp, Or.inr ?_⟩
      simp only [List.head?_cons]
      intro habs
      exact hd (by injection habs)

theorem digitsVal_canon (xs : List Nat) : digitsVal (canon xs) = digitsVal xs := by
  unfold canon
  rw [canonAux_val, List.reverse_reverse]

theorem digits_canon (xs : List Nat) (h : Digits xs) : Digits (canon xs) := by
  intro d hd
  unfold canon at hd
  rw [List.mem_reverse] at hd
  exact h d (List.mem_reverse.mp (canonAux_mem xs.reverse d hd))

theorem canonical_canon (xs : List Nat) (h : xs ≠ []) : Canonical (canon xs) := by
  have hrev : xs.reverse ≠ [] := by
    intro habs
    exact h (by simpa using congrArg List.reverse habs)
  obtain ⟨h1, h2⟩ := canonAux_shape xs.reverse hrev
  unfold canon
  refine ⟨by simpa, ?_⟩
  rcases h2 with hl | hh
  · left; simpa using hl
  · right
    rw [List.getLast?_reverse]
    exact hh

theorem canon_length_le (xs : List Nat) : (canon xs).length ≤ xs.length := by
  have : ∀ ys : List Nat, (canonAux ys).length ≤ ys.length := by
    intro ys
    induction ys using canonAux.induct with
    | case1 => simp [canonAux]
    | case2 d => simp [canonAux]
    | case3 e ds ih => rw [canonAux, if_pos rfl]; simp at ih ⊢; omega
    | case4 d e ds hd => rw [canonAux, if_neg hd]
  unfold canon
  simpa using this xs.reverse

/-! ## Facts about subtraction -/

/-- When the minuend dominates the subtrahend (and the borrow), the borrow
sweep succeeds, producing a digit sequence of the same length whose value
is the difference. -/
theorem subLoop_some : ∀ ls rs b, Digits ls → Digits rs → b ≤ 1 →
    rs.length ≤ ls.length → digitsVal rs + b ≤ digitsVal ls →
    ∃ out, subLoop ls rs b = some out ∧
      (digitsVal out + digitsVal rs + b = digitsVal ls ∧
        out.length = ls.length ∧ Digits out) := by
  intro ls rs b
  induction ls, rs, b using subLoop.induct with
  | case1 ls =>
      intro hdl _ _ _ _
      exact ⟨ls, by simp [subLoop], by simp [digitsVal], rfl, hdl⟩
  | case2 r rs b =>
      intro _ _ _ hlen _
      simp at hlen
  | case3 n =>
      intro _ _ _ _ hval
      simp [digitsVal] at hval
  | case4 l ls rs b hne hls ih =>
      intro hdl hdr hb hlen hval
      have h9 : l ≤ 9 := hdl l (by simp)
      have hdls : Digits ls := fun x hx => hdl x (List.mem_cons_of_mem l hx)
      have hdrt : Digits rs.tail := fun x hx => hdr x (List.mem_of_mem_tail hx)
      have hlent : rs.tail.length ≤ ls.length := by
        cases rs with
        | nil => simp
        | cons r rs2 => simpa using hlen
      -- value accounting: split the subtrahend into head and tail
      have hsplit : digitsVal rs = rs.headD 0 + 10 * digitsVal rs.tail := by
        cases rs with
        | nil =>
            have hb1 : b ≠ 0 := fun h => hne rfl h
            simp [digitsVal]
        | cons r rs2 => simp [digitsVal]
      have hr9 : rs.headD 0 ≤ 9 := by
        cases rs with
        | nil => simp
        | cons r rs2 => simpa using hdr r (by simp)
      simp only [digitsVal] at hval
      have hvt : digitsVal rs.tail + 1 ≤ digitsVal ls := by
        simp only [hsplit] at hval
        omega
      obtain ⟨out, ho, hv2, hl2, hd2⟩ := ih hdls hdrt (by omega) hlent hvt
      refine ⟨(l + 10 - (rs.headD 0 + b)) :: out, ?_, ?_, by simp [hl2], ?_⟩
      · cases rs with
        | nil =>
            have hb1 : b = 1 := by
              have hb0 : b ≠ 0 := fun h => hne rfl h
              omega
            subst hb1
            simp only [subLoop] at hls ⊢
            rw [if_pos hls, ho]
            simp
        | cons r rs2 =>
            simp only [subLoop] at hls ⊢
            rw [if_pos hls, ho]
            simp
      · simp only [digitsVal, hsplit]
        omega
      · intro d hd
        rcases List.mem_cons.mp hd with h1 | h2
        · omega
        · exact hd2 d h2
  | case5 l ls rs b hne hls ih =>
      intro hdl hdr hb hlen hval
      have h9 : l ≤ 9 := hdl l (by simp)
      have hdls : Digits ls := fun x hx => hdl x (List.mem_cons_of_mem l hx)
      have hdrt : Digits rs.tail := fun x hx => hdr x (List.mem_of_mem_tail hx)
      have hlent : rs.tail.length ≤ ls.length := by
        cases rs with
        | nil => simp
        | cons r rs2 => simpa using hlen
      have hsplit : digitsVal rs = rs.headD 0 + 10 * digitsVal rs.tail := by
        cases rs with
        | nil =>
            have hb1 : b ≠ 0 := fun h => hne rfl h
            simp [digitsVal]
        | cons r rs2 => simp [digitsVal]
      have hr9 : rs.headD 0 ≤ 9 := by
        cases rs with
        | nil => simp
        | cons r rs2 => simpa using hdr r (by simp)
      simp only [digitsVal] at hval
      have hvt : digitsVal rs.tail ≤ digitsVal ls := by
        simp only [hsplit] at hval
        omega
      obtain ⟨out, ho, hv2, hl2, hd2⟩ := ih hdls hdrt (by omega) hlent hvt
      refine ⟨(l - (rs.headD 0 + b)) :: out, ?_, ?_, by simp [hl2], ?_⟩
      · cases rs with
        | nil =>
            have hb1 : b = 1 := by
              have hb0 : b ≠ 0 := fun h => hne rfl h
              omega
            subst hb1
            simp only [subLoop] at hls ⊢
            rw [if_neg hls, ho]
            simp
        | cons r rs2 =>
            simp only [subLoop] at hls ⊢
            rw [if_neg hls, ho]
            simp
      · simp only [digitsVal, hsplit]
        omega
      · intro d hd
        rcases List.mem_cons.mp hd with h1 | h2
        · omega
        · exact hd2 d h2

/-- When the minuend's value is strictly smaller, the borrow never resolves
and the sweep runs off the end of the minuend's storage: an out-of-bounds
access. -/
theorem subLoop_none : ∀ ls rs b, Digits ls → Digits rs → b ≤ 1 →
    digitsVal ls < digitsVal rs + b → subLoop ls rs b = none := by
  intro ls rs b
  induction ls, rs, b using subLoop.induct with
  | case1 ls =>
      intro _ _ _ hval
      simp [digitsVal] at hval
  | case2 r rs b =>
      intro _ _ _ _
      simp [subLoop]
  | case3 n =>
      intro _ _ _ _
      simp [subLoop]
  | case4 l ls rs b hne hls ih =>
      intro hdl hdr hb hval
      have h9 : l ≤ 9 := hdl l (by simp)
      have hdls : Digits ls := fun x hx => hdl x (List.mem_cons_of_mem l hx)
      have hdrt : Digits rs.tail := fun x hx => hdr x (List.mem_of_mem_tail hx)
      have hsplit : digitsVal rs = rs.headD 0 + 10 * digitsVal rs.tail := by
        cases rs with
        | nil =>
            have hb1 : b ≠ 0 := fun h => hne rfl h
            simp [digitsVal]
        | cons r rs2 => simp [digitsVal]
      have hr9 : rs.headD 0 ≤ 9 := by
        cases rs with
        | nil => simp
        | cons r rs2 => simpa using hdr r (by simp)
      simp only [digitsVal] at hval
      have hvt : digitsVal ls < digitsVal rs.tail + 1 := by
        simp only [hsplit] at hval
        omega
      have hrec := ih hdls hdrt (by omega) hvt
      cases rs with
      | nil =>
          have hb1 : b = 1 := by
            have hb0 : b ≠ 0 := fun h => hne rfl h
            omega
          subst hb1
          simp only [subLoop] at hls ⊢
          rw [if_pos hls, hrec]
          rfl
      | cons r rs2 =>
          simp only [subLoop] at hls ⊢
          rw [if_pos hls, hrec]
          rfl
  | case5 l ls rs b hne hls ih =>
      intro hdl hdr hb hval
      have h9 : l ≤ 9 := hdl l (by simp)
      have hdls : Digits ls := fun x hx => hdl x (List.mem_cons_of_mem l hx)
      have hdrt : Digits rs.tail := fun x hx => hdr x (List.mem_of_mem_tail hx)
      have hsplit : digitsVal rs = rs.headD 0 + 10 * digitsVal rs.tail := by
        cases rs with
        | nil =>
            have hb1 : b ≠ 0 := fun h => hne rfl h
            simp [digitsVal]
        | cons r rs2 => simp [digitsVal]
      have hr9 : rs.headD 0 ≤ 9 := by
        cases rs with
        | nil => simp
        | cons r rs2 => simpa using hdr r (by simp)
      simp only [digitsVal] at hval
      have hvt : digitsVal ls < digitsVal rs.tail := by
        simp only [hsplit] at hval
        omega
      have hrec := ih hdls hdrt (by omega) (by omega)
      cases rs with
      | nil =>
          have hb1 : b = 1 := by
            have hb0 : b ≠ 0 := fun h => hne rfl h
            omega
          subst hb1
          simp only [subLoop] at hls ⊢
          rw [if_neg hls, hrec]
          rfl
      | cons r rs2 =>
          simp only [subLoop] at hls ⊢
          rw [if_neg hls, hrec]
          rfl

/-- Full contract of `operator-` under its documented precondition: with
canonical in-range operands and `value(b) ≤ value(a)`, subtraction succeeds
and returns the canonical difference. -/
theorem sub_ok (a b : BigInt) (ha : Good a) (hb : Good b)
    (h : digitsVal b.storage ≤ digitsVal a.storage) :
    ∃ c, a.sub b = some c ∧
      (digitsVal c.storage + digitsVal b.storage = digitsVal a.storage ∧
        Good c) := by
  have hlen : b.storage.length ≤ a.storage.length := by
    by_cases h1 : b.storage.length ≤ 1
    · have : a.storage.length ≠ 0 := fun habs =>
        ha.2.1 (List.eq_nil_of_length_eq_zero habs)
      omega
    · have hlast2 : b.storage.getLast? ≠ some 0 := by
        rcases hb.2.2 with hh | hh
        · exact absurd hh (by omega)
        · exact hh
      obtain ⟨k, hk⟩ : ∃ k, b.storage.getLast? = some k :=
        ⟨b.storage.getLast hb.2.1, List.getLast?_eq_getLast _ _⟩
      have hk0 : k ≠ 0 := fun hz => hlast2 (hz ▸ hk)
      have hlow := le_digitsVal_of_getLast b.storage k hk hk0
      have hhigh := digitsVal_lt a.storage ha.1
      by_contra hcon
      have : 10 ^ a.storage.length ≤ 10 ^ (b.storage.length - 1) :=
        Nat.pow_le_pow_right (by omega) (by omega)
      omega
  obtain ⟨out, ho, hv, hl, hd⟩ :=
    subLoop_some a.storage b.storage 0 ha.1 hb.1 (by omega) hlen (by omega)
  refine ⟨⟨canon out⟩, ?_, ?_, digits_canon out hd, canonical_canon out ?_⟩
  · rw [BigInt.sub, ho]
    rfl
  · show digitsVal (canon out) + _ = _
    rw [digitsVal_canon]
    omega
  · intro habs
    have : out.length = 0 := by rw [habs]; rfl
    have : a.storage.length = 0 := by omega
    exact ha.2.1 (List.eq_nil_of_length_eq_zero this)

/-! ## Facts about multiplication -/

/-- One inner pass of `operator*=` succeeds (no out-of-bounds write) and
adds `rd * value(ls)` (plus the carry) into the buffer, provided the total
fits in the remaining buffer and the left digits do not outrun it. -/
theorem mulPass_ok : ∀ (res : List Nat) (rd : Nat) (ls : List Nat) (c : Nat),
    Digits res → ls.length ≤ res.length →
    digitsVal res + rd * digitsVal ls + c < 10 ^ res.length →
    ∃ out, mulPass res rd ls c = some out ∧
      (digitsVal out = digitsVal res + rd * digitsVal ls + c ∧
        out.length = res.length ∧ Digits out) := by
  intro res
  induction res with
  | nil =>
      intro rd ls c _ hlen hfit
      have hls : ls = [] := List.eq_nil_of_length_eq_zero (by simpa using hlen)
      subst hls
      have hc : c = 0 := by simpa [digitsVal] using hfit
      subst hc
      exact ⟨[], rfl, by simp [digitsVal], rfl, by intro d hd; simp at hd⟩
  | cons x xs ih =>
      intro rd ls c hdres hlen hfit
      have hx9 : x ≤ 9 := hdres x (by simp)
      have hdxs : Digits xs := fun d hd => hdres d (List.mem_cons_of_mem x hd)
      cases ls with
      | nil =>
          cases c with
          | zero =>
              exact ⟨x :: xs, rfl, by simp [digitsVal], rfl, hdres⟩
          | succ c0 =>
              have hfit2 : digitsVal xs + rd * digitsVal ([] : List Nat)
                  + (x + (c0 + 1)) / 10 < 10 ^ xs.length := by
                simp only [digitsVal] at hfit ⊢
                simp only [List.length_cons, pow_succ] at hfit
                omega
              obtain ⟨out, ho, hv, hl, hd⟩ := ih rd [] ((x + (c0 + 1)) / 10)
                hdxs (by simp) hfit2
              refine ⟨(x + (c0 + 1)) % 10 :: out, ?_, ?_, by simp [hl], ?_⟩
              · show (mulPass xs rd [] ((x + (c0 + 1)) / 10)).map _ = _
                rw [ho]
                rfl
              · simp only [digitsVal, hv] at *
                omega
              · intro d hd2
                rcases List.mem_cons.mp hd2 with h1 | h2
                · omega
                · exact hd d h2
      | cons l ls2 =>
          have hlen2 : ls2.length ≤ xs.length := by simpa using hlen
          have hfit2 : digitsVal xs + rd * digitsVal ls2
              + (x + rd * l + c) / 10 < 10 ^ xs.length := by
            simp only [digitsVal, List.length_cons, pow_succ] at hfit ⊢
            have hmod : (x + rd * l + c) % 10 + 10 * ((x + rd * l + c) / 10)
                = x + rd * l + c := Nat.mod_add_div _ _
            nlinarith [Nat.mod_lt (x + rd * l + c) (show 0 < 10 by norm_num),
              Nat.zero_le ((x + rd * l + c) % 10)]
          obtain ⟨out, ho, hv, hl, hd⟩ := ih rd ls2 ((x + rd * l + c) / 10)
            hdxs hlen2 hfit2
          refine ⟨(x + rd * l + c) % 10 :: out, ?_, ?_, by simp [hl], ?_⟩
          · show (mulPass xs rd ls2 ((x + rd * l + c) / 10)).map _ = _
            rw [ho]
            rfl
          · simp only [digitsVal, hv]
            have hmod : (x + rd * l + c) % 10 + 10 * ((x + rd * l + c) / 10)
                = x + rd * l + c := Nat.mod_add_div _ _
            ring_nf
            nlinarith [hmod]
          · intro d hd2
            rcases List.mem_cons.mp hd2 with h1 | h2
            · have := Nat.mod_lt (x + rd * l + c) (show 0 < 10 by norm_num)
              omega
            · exact hd d h2

/-- The outer loop of `operator*=` succeeds and accumulates the full
product into the buffer. -/
theorem mulOuter_ok : ∀ (rs : List Nat) (res ls : List Nat),
    Digits res → Digits ls → Digits rs →
    ls.length + rs.length ≤ res.length →
    digitsVal res + digitsVal ls * digitsVal rs < 10 ^ res.length →
    ∃ out, mulOuter res ls rs = some out ∧
      (digitsVal out = digitsVal res + digitsVal ls * digitsVal rs ∧
        out.length = res.length ∧ Digits out) := by
  intro rs
  induction rs with
  | nil =>
      intro res ls hdres _ _ _ _
      exact ⟨res, rfl, by simp [digitsVal], rfl, hdres⟩
  | cons r rs ih =>
      intro res ls hdres hdls hdrs hlen hfit
      have hr9 : r ≤ 9 := hdrs r (by simp)
      have hdrs2 : Digits rs := fun d hd => hdrs d (List.mem_cons_of_mem r hd)
      have hfitsplit : digitsVal res + (digitsVal ls * r
          + 10 * (digitsVal ls * digitsVal rs)) < 10 ^ res.length := by
        have : digitsVal ls * digitsVal (r :: rs)
            = digitsVal ls * r + 10 * (digitsVal ls * digitsVal rs) := by
          simp only [digitsVal]
          ring
        omega
      have hpassfit : digitsVal res + r * digitsVal ls + 0 < 10 ^ res.length := by
        rw [Nat.mul_comm r (digitsVal ls)]
        omega
      obtain ⟨out1, ho1, hv1, hl1, hd1⟩ := mulPass_ok res r ls 0 hdres
        (by simp at hlen; omega) hpassfit
      cases out1 with
      | nil =>
          exfalso
          have : res.length = 0 := by rw [← hl1]; rfl
          simp at hlen
          omega
      | cons y ys =>
          have hy9 : y ≤ 9 := hd1 y (by simp)
          have hdys : Digits ys := fun d hd => hd1 d (List.mem_cons_of_mem y hd)
          have hlres : res.length = ys.length + 1 := by
            have := hl1
            simp at this
            omega
          have hlys : ls.length + rs.length ≤ ys.length := by
            simp at hlen
            omega
          have hv1c : y + 10 * digitsVal ys
              = digitsVal res + digitsVal ls * r := by
            have := hv1
            simp only [digitsVal] at this
            rw [Nat.mul_comm r (digitsVal ls)] at this
            omega
          have hpow : (10:Nat) ^ res.length = 10 * 10 ^ ys.length := by
            rw [hlres, pow_succ]
            ring
          have hfys : digitsVal ys + digitsVal ls * digitsVal rs
              < 10 ^ ys.length := by
            rw [hpow] at hfitsplit
            omega
          obtain ⟨out2, ho2, hv2, hl2, hd2⟩ := ih ys ls hdys hdls hdrs2
            hlys hfys
          refine ⟨y :: out2, ?_, ?_, ?_, ?_⟩
          · rw [mulOuter, ho1]
            show (mulOuter ys ls rs).map (fun t => y :: t) = some (y :: out2)
            rw [ho2]
            rfl
          · show digitsVal (y :: out2)
                = digitsVal res + digitsVal ls * digitsVal (r :: rs)
            have hsplit2 : digitsVal ls * digitsVal (r :: rs)
                = digitsVal ls * r + 10 * (digitsVal ls * digitsVal rs) := by
              simp only [digitsVal]
              ring
            rw [hsplit2]
            simp only [digitsVal, hv2]
            omega
          · simp [hl2, hlres]
          · intro d hd
            rcases List.mem_cons.mp hd with h1 | h2
            · omega
            · exact hd2 d h2

/-- Full contract of `operator*`: with in-range digit sequences the nested
loops never leave the result buffer, and the canonicalized result has the
product as its value. -/
theorem mul_ok (a b : BigInt) (ha : Digits a.storage) (hb : Digits b.storage) :
    ∃ c, a.mul b = some c ∧
      (digitsVal c.storage = digitsVal a.storage * digitsVal b.storage ∧
        Digits c.storage ∧ (a.storage ≠ [] → Canonical c.storage)) := by
  have hres : Digits (List.replicate
      (a.storage.length + b.storage.length) 0) := by
    intro d hd
    rw [List.eq_of_mem_replicate hd]
    omega
  have hfit : digitsVal (List.replicate (a.storage.length + b.storage.length) 0)
      + digitsVal a.storage * digitsVal b.storage
      < 10 ^ (List.replicate (a.storage.length + b.storage.length) 0).length := by
    rw [digitsVal_replicate_zero, List.length_replicate, pow_add]
    have h1 := digitsVal_lt a.storage ha
    have h2 := digitsVal_lt b.storage hb
    exact Nat.lt_of_lt_of_le (by nlinarith) (le_refl _)
  obtain ⟨out, ho, hv, hl, hd⟩ := mulOuter_ok b.storage _ a.storage hres ha hb
    (by simp) hfit
  refine ⟨⟨canon out⟩, ?_, ?_, digits_canon out hd, ?_⟩
  · rw [BigInt.mul, ho]
    rfl
  · show digitsVal (canon out) = _
    rw [digitsVal_canon, hv, digitsVal_replicate_zero]
    omega
  · intro hne
    refine canonical_canon out ?_
    intro habs
    have h0 : out.length = 0 := by rw [habs]; rfl
    rw [hl, List.length_replicate] at h0
    have : a.storage.length = 0 := by omega
    exact hne (List.eq_nil_of_length_eq_zero this)


/-! ## The decimal string representation -/

theorem digitChar_eq_ofNat (d : Nat) (h : d ≤ 9) :
    Nat.digitChar d = Char.ofNat (d + 48) := by
  interval_cases d <;> decide

/-- The standard library's decimal rendering agrees with the reversed
digit list produced by the constructor loop. -/
theorem toDigitsCore_eq (fuel : Nat) : ∀ (n : Nat) (ds : List Char),
    n < fuel →
    Nat.toDigitsCore 10 fuel n ds
      = (natDigits n).reverse.map Nat.digitChar ++ ds := by
  induction fuel with
  | zero => intro n ds h; omega
  | succ f ih =>
      intro n ds h
      rw [Nat.toDigitsCore]
      by_cases h10 : n / 10 = 0
      · have hn : n < 10 := by
          rcases Nat.lt_or_ge n 10 with h1 | h1
          · exact h1
          · exfalso
            have : 1 ≤ n / 10 := Nat.one_le_div_iff (by norm_num) |>.mpr h1
            omega
        simp only [h10, if_pos]
        rw [natDigits, dif_pos hn]
        simp [Nat.mod_eq_of_lt hn]
      · have hn : ¬ n < 10 := by
          intro hlt
          exact h10 (Nat.div_eq_of_lt hlt)
        simp only [h10, if_neg, if_false]
        have hlt : n / 10 < f := by
          have := Nat.div_lt_self (show 0 < n by omega) (show 1 < 10 by norm_num)
          omega
        rw [natDigits, dif_neg hn]
        rw [ih (n / 10) _ hlt]
        simp

theorem toString_ofNat (n : Nat) : (BigInt.ofNat n).toString = Nat.repr n := by
  show String.mk ((natDigits n).reverse.map (fun d => Char.ofNat (d + 48)))
    = Nat.repr n
  unfold Nat.repr Nat.toDigits
  rw [toDigitsCore_eq (n + 1) n [] (by omega), List.append_nil]
  have hmap : (natDigits n).reverse.map (fun d => Char.ofNat (d + 48))
      = (natDigits n).reverse.map Nat.digitChar := by
    apply List.map_congr_left
    intro d hd
    exact (digitChar_eq_ofNat d
      (digits_natDigits n d (List.mem_reverse.mp hd))).symm
  rw [hmap]
  rfl

/-! ## The numeric algorithms -/

/-- Loop invariant of `fibonacci`: starting from a pair of consecutive
Fibonacci values, the loop ends with counter `n % 2` and consecutive
Fibonacci values shifted by the number of executed decrements. -/
theorem fibLoop_ok : ∀ (n k : Nat) (p0 p1 : BigInt), Good p0 → Good p1 →
    digitsVal p0.storage = Nat.fib k →
    digitsVal p1.storage = Nat.fib (k + 1) →
    ∃ q0 q1, fibLoop (n : Int) p0 p1 = (((n % 2 : Nat) : Int), q0, q1) ∧
      Good q0 ∧ Good q1 ∧
      digitsVal q0.storage = Nat.fib (k + (n - n % 2)) ∧
      digitsVal q1.storage = Nat.fib (k + (n - n % 2) + 1) := by
  intro n
  induction n using Nat.strong_induction_on with
  | _ n ih =>
      match n with
      | 0 =>
          intro k p0 p1 h0 h1 hv0 hv1
          refine ⟨p0, p1, ?_, h0, h1, by simpa using hv0, by simpa using hv1⟩
          rw [fibLoop]
          norm_num
      | 1 =>
          intro k p0 p1 h0 h1 hv0 hv1
          refine ⟨p0, p1, ?_, h0, h1, by simpa using hv0, by simpa using hv1⟩
          rw [fibLoop]
          norm_num
      | (m + 2) =>
          intro k p0 p1 h0 h1 hv0 hv1
          have hgt : (1 : Int) < ((m + 2 : Nat) : Int) := by
            push_cast
            omega
          have harg : ((m + 2 : Nat) : Int) - 2 = ((m : Nat) : Int) := by
            push_cast
            ring
          have hstep : fibLoop ((m + 2 : Nat) : Int) p0 p1
              = fibLoop ((m : Nat) : Int) (p0.add p1) (p1.add (p0.add p1)) := by
            rw [fibLoop, dif_pos hgt, harg]
          have hga : Good (p0.add p1) := good_add p0 p1 h0 h1
          have hgb : Good (p1.add (p0.add p1)) := good_add p1 (p0.add p1) h1 hga
          have hva : digitsVal (p0.add p1).storage = Nat.fib (k + 2) := by
            rw [digitsVal_add, hv0, hv1, Nat.fib_add_two]
          have hvb : digitsVal (p1.add (p0.add p1)).storage
              = Nat.fib (k + 3) := by
            rw [digitsVal_add, hv1, hva]
            have hfib : Nat.fib (k + 1 + 2) = Nat.fib (k + 1) + Nat.fib (k + 1 + 1) :=
              Nat.fib_add_two
            have he1 : k + 1 + 2 = k + 3 := by ring
            have he2 : k + 1 + 1 = k + 2 := by ring
            rw [he1, he2] at hfib
            omega
          obtain ⟨q0, q1, hq, hg0, hg1, hw0, hw1⟩ :=
            ih m (by omega) (k + 2) (p0.add p1) (p1.add (p0.add p1))
              hga hgb hva (by rw [hvb])
          refine ⟨q0, q1, ?_, hg0, hg1, ?_, ?_⟩
          · rw [hstep, hq]
            have hmm : (m + 2) % 2 = m % 2 := by omega
            rw [hmm]
          · rw [hw0]
            congr 1
            omega
          · rw [hw1]
            congr 2
            omega


theorem bigint_eq_of_storage (x y : BigInt) (h : x.storage = y.storage) :
    x = y := by
  cases x
  cases y
  simpa using h

/-- End-to-end contract of `fibonacci` on non-negative arguments. -/
theorem fibonacci_ok (n : Nat) :
    ∃ f, fibonacci (n : Int) = some f ∧
      digitsVal f.storage = Nat.fib n ∧ Good f := by
  have hv0 : digitsVal (BigInt.ofNat 0).storage = Nat.fib 0 := by
    show digitsVal (natDigits 0) = Nat.fib 0
    rw [digitsVal_natDigits, Nat.fib_zero]
  have hv1 : digitsVal (BigInt.ofNat 1).storage = Nat.fib (0 + 1) := by
    show digitsVal (natDigits 1) = Nat.fib 1
    rw [digitsVal_natDigits, Nat.fib_one]
  obtain ⟨q0, q1, hq, hg0, hg1, hw0, hw1⟩ :=
    fibLoop_ok n 0 (BigInt.ofNat 0) (BigInt.ofNat 1)
      (good_ofNat 0) (good_ofNat 1) hv0 hv1
  unfold fibonacci
  rw [hq]
  by_cases hpar : n % 2 = 0
  · refine ⟨q0, ?_, ?_, hg0⟩
    · rw [hpar]
      rfl
    · rw [hw0]
      congr 1
      omega
  · have hpar1 : n % 2 = 1 := by omega
    refine ⟨q1, ?_, ?_, hg1⟩
    · rw [hpar1]
      rfl
    · rw [hw1]
      congr 1
      omega

/-- A `BigInt` is determined by its value once it is canonical and
in range; stated on whole values for convenient reuse. -/
theorem bigint_eq_of_val (x y : BigInt) (hx : Good x) (hy : Good y)
    (h : digitsVal x.storage = digitsVal y.storage) : x = y :=
  bigint_eq_of_storage x y (digitsVal_inj _ _ hx.1 hx.2 hy.1 hy.2 h)

/-! ## The claims -/

/-- C1 (code_bug evidence): `5 - 10` does not signal any error in the
source — the borrow loop reads `left.storage[1]` past the end of the
one-digit minuend, which is the out-of-bounds access modelled by `none`. -/
theorem sub_underflow_is_out_of_bounds :
    BigInt.sub (BigInt.ofNat 5) (BigInt.ofNat 10) = none := by
  have h5 : BigInt.ofNat 5 = ⟨[5]⟩ := by
    show (⟨natDigits 5⟩ : BigInt) = _
    simp [natDigits]
  have h10 : BigInt.ofNat 10 = ⟨[0, 1]⟩ := by
    show (⟨natDigits 10⟩ : BigInt) = _
    simp [natDigits]
  rw [h5, h10]
  rfl

/-- C2 (code_bug evidence): negative native-integer arguments are not
rejected anywhere.  `power` silently returns `1` for a negative exponent;
`factorial` of a negative argument never terminates normally (modelled
`none`); `fibonacci` of a negative index reads `fibonacci_pair[number]`
out of bounds (modelled `none`).  No explicit failure is signalled. -/
theorem negative_inputs_not_rejected :
    power (BigInt.ofNat 2) (-3) = some (BigInt.ofNat 1) ∧
      factorial (-1) = none ∧ fibonacci (-1) = none := by
  refine ⟨?_, rfl, ?_⟩
  · rw [power, powerLoop, dif_neg (by omega)]
  · unfold fibonacci
    rw [fibLoop, dif_neg (by omega)]
    norm_num

/-- C3: every producing operation returns a canonical digit sequence:
construction from a native integer unconditionally; addition,
multiplication, and subtraction (under its `a ≥ b` precondition) for
canonical in-range operands. -/
theorem producing_ops_canonical :
    (∀ n : Nat, Canonical (BigInt.ofNat n).storage) ∧
      (∀ a b : BigInt, Good a → Good b → Canonical (a.add b).storage) ∧
      (∀ a b : BigInt, Good a → Good b →
        ∃ c, a.mul b = some c ∧ Canonical c.storage) ∧
      (∀ a b : BigInt, Good a → Good b →
        digitsVal b.storage ≤ digitsVal a.storage →
        ∃ c, a.sub b = some c ∧ Canonical c.storage) := by
  refine ⟨canonical_natDigits, canonical_add, ?_, ?_⟩
  · intro a b ha hb
    obtain ⟨c, hc, _, _, hcan⟩ := mul_ok a b ha.1 hb.1
    exact ⟨c, hc, hcan ha.2.1⟩
  · intro a b ha hb h
    obtain ⟨c, hc, _, hg⟩ := sub_ok a b ha hb h
    exact ⟨c, hc, hg.2⟩

theorem producing_ops_canonical_witness :
    Canonical (BigInt.ofNat 7).storage ∧
      Canonical (BigInt.add ⟨[9]⟩ ⟨[1]⟩).storage ∧
      (∃ c, BigInt.mul ⟨[2]⟩ ⟨[5]⟩ = some c ∧ Canonical c.storage) ∧
      (∃ c, BigInt.sub ⟨[0, 1]⟩ ⟨[9]⟩ = some c ∧ Canonical c.storage) :=
  ⟨producing_ops_canonical.1 7,
    producing_ops_canonical.2.1 ⟨[9]⟩ ⟨[1]⟩ (by decide) (by decide),
    producing_ops_canonical.2.2.1 ⟨[2]⟩ ⟨[5]⟩ (by decide) (by decide),
    producing_ops_canonical.2.2.2 ⟨[0, 1]⟩ ⟨[9]⟩ (by decide) (by decide)
      (by decide)⟩

/-- C4: for canonical in-range operands with `value(a) ≥ value(b)`,
`(a - b) + b = a` exactly (as digit sequences). -/
theorem sub_then_add_roundtrip (a b : BigInt) (ha : Good a) (hb : Good b)
    (h : digitsVal b.storage ≤ digitsVal a.storage) :
    ∃ d, a.sub b = some d ∧ d.add b = a := by
  obtain ⟨d, hd, hv, hg⟩ := sub_ok a b ha hb h
  refine ⟨d, hd, ?_⟩
  apply bigint_eq_of_val _ _ (good_add d b hg hb) ha
  rw [digitsVal_add]
  omega

theorem sub_then_add_roundtrip_witness :
    ∃ d, BigInt.sub ⟨[1, 1, 1]⟩ ⟨[5, 5]⟩ = some d ∧
      BigInt.add d ⟨[5, 5]⟩ = ⟨[1, 1, 1]⟩ :=
  sub_then_add_roundtrip ⟨[1, 1, 1]⟩ ⟨[5, 5]⟩ (by decide) (by decide)
    (by decide)

/-- C5: converting the `BigInt` built from a native integer back to a
string yields exactly the decimal representation; in particular `0`
produces the one-digit string `"0"`. -/
theorem ofNat_toString_decimal :
    (∀ n : Nat, (BigInt.ofNat n).toString = Nat.repr n) ∧
      (BigInt.ofNat 0).toString = "0" :=
  ⟨toString_ofNat, by rw [toString_ofNat]; rfl⟩

/-- C6: `fibonacci` produces the conventional Fibonacci sequence
(`fib 0 = 0`, `fib 1 = 1`); in particular entries 10, 0 and 1 convert to
the strings `"55"`, `"0"` and `"1"`. -/
theorem fibonacci_conventional :
    (∀ n : Nat, ∃ f, fibonacci (n : Int) = some f ∧
        digitsVal f.storage = Nat.fib n) ∧
      (∃ f, fibonacci 10 = some f ∧ f.toString = "55") ∧
      (∃ f, fibonacci 0 = some f ∧ f.toString = "0") ∧
      (∃ f, fibonacci 1 = some f ∧ f.toString = "1") := by
  have key : ∀ n : Nat, ∃ f, fibonacci (n : Int) = some f ∧
      f.toString = Nat.repr (Nat.fib n) := by
    intro n
    obtain ⟨f, hf, hv, hg⟩ := fibonacci_ok n
    refine ⟨f, hf, ?_⟩
    have hstor : BigInt.ofNat (Nat.fib n) = f := by
      show (⟨natDigits (Nat.fib n)⟩ : BigInt) = f
      rw [← hv, natDigits_digitsVal f.storage hg.1 hg.2]
    rw [← hstor, toString_ofNat]
  refine ⟨?_, ?_, ?_, ?_⟩
  · intro n
    obtain ⟨f, hf, hv, _⟩ := fibonacci_ok n
    exact ⟨f, hf, hv⟩
  · obtain ⟨f, hf, hs⟩ := key 10
    refine ⟨f, by exact_mod_cast hf, ?_⟩
    rw [hs]
    decide
  · obtain ⟨f, hf, hs⟩ := key 0
    refine ⟨f, by exact_mod_cast hf, ?_⟩
    rw [hs]
    rfl
  · obtain ⟨f, hf, hs⟩ := key 1
    refine ⟨f, by exact_mod_cast hf, ?_⟩
    rw [hs]
    rfl

/-- C7: addition is commutative, both in value and as canonical digit
sequences, despite the asymmetric in-place implementation. -/
theorem add_commutative (a b : BigInt) (ha : Good a) (hb : Good b) :
    a.add b = b.add a := by
  apply bigint_eq_of_val _ _ ⟨digits_add a b ha.1 hb.1, canonical_add a b ha hb⟩
    ⟨digits_add b a hb.1 ha.1, canonical_add b a hb ha⟩
  rw [digitsVal_add, digitsVal_add]
  ring

theorem add_commutative_witness :
    BigInt.add ⟨[9, 9]⟩ ⟨[1]⟩ = BigInt.add ⟨[1]⟩ ⟨[9, 9]⟩ :=
  add_commutative ⟨[9, 9]⟩ ⟨[1]⟩ (by decide) (by decide)

/-- C8: multiplication distributes over addition:
`a * (b + c) = a*b + a*c`. -/
theorem mul_distrib_add (a b c : BigInt) (ha : Good a) (hb : Good b)
    (hc : Good c) :
    ∃ p q r, a.mul b = some p ∧ a.mul c = some q ∧
      a.mul (b.add c) = some r ∧ p.add q = r := by
  obtain ⟨p, hp, hvp, hdp, hcp⟩ := mul_ok a b ha.1 hb.1
  obtain ⟨q, hq, hvq, hdq, hcq⟩ := mul_ok a c ha.1 hc.1
  obtain ⟨r, hr, hvr, hdr, hcr⟩ :=
    mul_ok a (b.add c) ha.1 (digits_add b c hb.1 hc.1)
  refine ⟨p, q, r, hp, hq, hr, ?_⟩
  apply bigint_eq_of_val _ _
    ⟨digits_add p q hdp hdq,
      canonical_add p q ⟨hdp, hcp ha.2.1⟩ ⟨hdq, hcq ha.2.1⟩⟩
    ⟨hdr, hcr ha.2.1⟩
  rw [digitsVal_add, hvp, hvq, hvr, digitsVal_add]
  ring

theorem mul_distrib_add_witness :
    ∃ p q r, BigInt.mul ⟨[7]⟩ ⟨[8]⟩ = some p ∧
      BigInt.mul ⟨[7]⟩ ⟨[9]⟩ = some q ∧
      BigInt.mul ⟨[7]⟩ (BigInt.add ⟨[8]⟩ ⟨[9]⟩) = some r ∧
      BigInt.add p q = r :=
  mul_distrib_add ⟨[7]⟩ ⟨[8]⟩ ⟨[9]⟩ (by decide) (by decide) (by decide)

/-- C9: any non-empty all-digit string — leading zeros included — survives
the construction/conversion round trip unchanged, because the string
constructor stores the digits reversed without canonicalizing and the
conversion reverses them back. -/
theorem string_roundtrip (s : String) (_hne : s.data ≠ [])
    (hdig : ∀ c ∈ s.data, c.isDigit) :
    (BigInt.ofString s).toString = s := by
  show String.mk ((((s.data.map (fun c => c.toNat - 48)).reverse).reverse).map
    (fun d => Char.ofNat (d + 48))) = s
  rw [List.reverse_reverse, List.map_map]
  have hmap : s.data.map
      ((fun d => Char.ofNat (d + 48)) ∘ (fun c => c.toNat - 48))
      = s.data.map id := by
    apply List.map_congr_left
    intro c hc
    have hd := hdig c hc
    simp [Char.isDigit] at hd
    obtain ⟨h1, h2⟩ := hd
    have h48 : 48 ≤ c.toNat := h1
    show Char.ofNat (c.toNat - 48 + 48) = c
    rw [show c.toNat - 48 + 48 = c.toNat by omega]
    exact Char.ofNat_toNat c
  rw [hmap, List.map_id]

theorem string_roundtrip_witness :
    (BigInt.ofString "007").toString = "007" :=
  string_roundtrip "007" (by decide) (by decide)

/-- C10: the loop of `power` runs only while the exponent is strictly
positive, so every exponent `≤ 0` — negative exponents included — yields
the `BigInt` `1`, for every base including zero. -/
theorem power_nonpos_one (base : BigInt) (e : Int) (h : e ≤ 0) :
    power base e = some (BigInt.ofNat 1) := by
  rw [power, powerLoop, dif_neg (by omega)]

theorem power_nonpos_one_witness :
    power ⟨[0]⟩ (-5) = some (BigInt.ofNat 1) :=
  power_nonpos_one ⟨[0]⟩ (-5) (by decide)


end Lab2
